import Mathlib

set_option maxHeartbeats 1000000

/-!
Verification development for the PDF-analysis / Word-template-filling program
(`main.py`, `te.py`, `gui.py`).  Texts are modelled as lists of characters,
the Word document as a list of styled paragraphs, and the remote agent,
file system and JSON decoder as an explicit environment record.
-/

/-- Texts are modelled as lists of characters. -/
abbrev Str := List Char

/-- Python `str.lstrip()` (restricted to the four common whitespace characters). -/
def lstripL (s : Str) : Str := s.dropWhile Char.isWhitespace

/-- Python `str.rstrip()`. -/
def rstripL (s : Str) : Str := (s.reverse.dropWhile Char.isWhitespace).reverse

/-- Python `str.strip()`. -/
def stripL (s : Str) : Str := lstripL (rstripL s)

theorem length_dropWhile_le {α : Type} (p : α → Bool) (l : List α) :
    (l.dropWhile p).length ≤ l.length := by
  induction l with
  | nil => simp
  | cons a l ih =>
    rw [List.dropWhile_cons]
    by_cases h : p a = true
    · simp only [if_pos h, List.length_cons]; omega
    · simp only [if_neg h, List.length_cons]; omega

/-- `full.find("}", i + 1)` as used by `processar_paragrafo`: split the text at
the first closing brace, returning the part before it and the part after it;
`none` when there is no closing brace. -/
def findClose : Str → Option (Str × Str)
  | [] => none
  | c :: rest =>
    if c = '}' then some ([], rest)
    else
      match findClose rest with
      | none => none
      | some (k, a) => some (c :: k, a)

theorem findClose_length : ∀ {l k a : Str}, findClose l = some (k, a) → a.length < l.length := by
  intro l
  induction l with
  | nil => intro k a h; simp [findClose] at h
  | cons c rest ih =>
    intro k a h
    simp only [findClose] at h
    by_cases hc : c = '}'
    · rw [if_pos hc] at h
      simp only [Option.some.injEq, Prod.mk.injEq] at h
      rw [← h.2]
      simp only [List.length_cons]
      omega
    · rw [if_neg hc] at h
      cases hr : findClose rest with
      | none => rw [hr] at h; simp at h
      | some ka =>
        obtain ⟨k', a'⟩ := ka
        rw [hr] at h
        simp only [Option.some.injEq, Prod.mk.injEq] at h
        have := ih hr
        rw [← h.2]
        simp only [List.length_cons]
        omega

theorem findClose_none_of_not_mem {l : Str} (h : '}' ∉ l) : findClose l = none := by
  induction l with
  | nil => rfl
  | cons c rest ih =>
    simp only [List.mem_cons, not_or] at h
    simp [findClose, Ne.symm h.1, ih h.2]

/-- A record mapping keys to values (Python `dict[str, str]`); lookup is by the
first matching key (keys coming from a JSON object are unique). -/
def lookupS {α : Type} : List (Str × α) → Str → Option α
  | [], _ => none
  | (k', v) :: rest, k => if k' = k then some v else lookupS rest k

/-- `dados_preparados.get(chave, "")`: an absent key resolves to the empty string. -/
def resolveKey (m : List (Str × Str)) (k : Str) : Str := (lookupS m k).getD []

/-- The test `d != '{'` used to cut the fixed segment that runs up to the next
opening brace. -/
def notOpen (d : Char) : Bool := d ≠ '{'

/-- The segment list built by the scanning loop of `processar_paragrafo`:
`(false, t)` is a fixed segment copied verbatim, `(true, t)` is a resolved
placeholder value. -/
def segmentos (m : List (Str × Str)) (l : Str) : List (Bool × Str) :=
  match l with
  | [] => []
  | c :: rest =>
    if c = '{' then
      match h : findClose rest with
      | none => [(false, c :: rest)]
      | some (chave, after) => (true, resolveKey m chave) :: segmentos m after
    else
      (false, c :: rest.takeWhile notOpen) :: segmentos m (rest.dropWhile notOpen)
termination_by l.length
decreasing_by
  · have := findClose_length h
    simp only [List.length_cons]
    omega
  · have := length_dropWhile_le notOpen rest
    simp only [List.length_cons]
    omega

/-- The replacement of every well-formed placeholder span, written from the
spec's description of the scan: on a `{`, search for the next `}`; if found,
splice in the resolved value of the key between them; if not found, keep the
rest verbatim; every other character is preserved. -/
def substSpec (m : List (Str × Str)) (l : Str) : Str :=
  match l with
  | [] => []
  | c :: rest =>
    if c = '{' then
      match h : findClose rest with
      | none => c :: rest
      | some (chave, after) => resolveKey m chave ++ substSpec m after
    else c :: substSpec m rest
termination_by l.length
decreasing_by
  · have := findClose_length h
    simp only [List.length_cons]
    omega
  · simp only [List.length_cons]
    omega

/-- A formatted run of a Word paragraph (text plus the font attributes the
program touches). -/
structure TRun where
  text : Str
  colorRgb : Option (Nat × Nat × Nat) := none
  fontName : Option Str := none
  fontSizePt : Option Nat := none
deriving DecidableEq

/-- A Word paragraph: a named style and an ordered list of runs. -/
structure Paragraph where
  style : Str
  runs : List TRun
deriving DecidableEq

/-- `p.text` in python-docx: the concatenation of the run texts. -/
def paraText (p : Paragraph) : Str := (p.runs.map TRun.text).flatten

/-- `RGBColor(0, 0, 255)`. -/
def azul : Nat × Nat × Nat := (0, 0, 255)

/-- The run created for one segment: a value segment gets the fixed blue
color, `Bookman Old Style`, 12 pt; a fixed segment keeps the default font. -/
def mkRun (tipo : Bool) (texto : Str) : TRun :=
  if tipo then
    { text := texto, colorRgb := some azul,
      fontName := some "Bookman Old Style".data, fontSizePt := some 12 }
  else { text := texto }

/-- `processar_paragrafo` from `preencher_modelo_word`: a paragraph whose text
lacks an opening or closing brace is left untouched; otherwise the run list is
rebuilt from the segments (empty segments produce no run) while the paragraph
style is saved and restored. -/
def processarParagrafo (m : List (Str × Str)) (p : Paragraph) : Paragraph :=
  let full := paraText p
  if '{' ∉ full ∨ '}' ∉ full then p
  else
    { style := p.style
      runs := (segmentos m full).filterMap
        (fun s => if s.2 = [] then none else some (mkRun s.1 s.2)) }

/-- Lookup in a character translation table. -/
def lookupCh : List (Char × Char) → Char → Option Char
  | [], _ => none
  | (a, b) :: rest, c => if c = a then some b else lookupCh rest c

/-- Apply a character translation table, leaving unmapped characters alone. -/
def applyTable (tbl : List (Char × Char)) (c : Char) : Char := (lookupCh tbl c).getD c

/-- The case table of Python `str.upper()` for the basic latin letters the
program compares (`"SIM"`). -/
def upperTable : List (Char × Char) := [('a', 'A'), ('b', 'B'), ('c', 'C'), ('d', 'D'), ('e', 'E'), ('f', 'F'), ('g', 'G'), ('h', 'H'), ('i', 'I'), ('j', 'J'), ('k', 'K'), ('l', 'L'), ('m', 'M'), ('n', 'N'), ('o', 'O'), ('p', 'P'), ('q', 'Q'), ('r', 'R'), ('s', 'S'), ('t', 'T'), ('u', 'U'), ('v', 'V'), ('w', 'W'), ('x', 'X'), ('y', 'Y'), ('z', 'Z')]

/-- The case table of Python `str.lower()` for the basic latin letters the
program compares (the `".pdf"` extension). -/
def lowerTable : List (Char × Char) := [('A', 'a'), ('B', 'b'), ('C', 'c'), ('D', 'd'), ('E', 'e'), ('F', 'f'), ('G', 'g'), ('H', 'h'), ('I', 'i'), ('J', 'j'), ('K', 'k'), ('L', 'l'), ('M', 'm'), ('N', 'n'), ('O', 'o'), ('P', 'p'), ('Q', 'q'), ('R', 'r'), ('S', 's'), ('T', 't'), ('U', 'u'), ('V', 'v'), ('W', 'w'), ('X', 'x'), ('Y', 'y'), ('Z', 'z')]

/-- Python `str.upper()` on one character. -/
def pyUpperChar (c : Char) : Char := applyTable upperTable c

/-- Python `str.lower()` on one character. -/
def pyLowerChar (c : Char) : Char := applyTable lowerTable c

/-- Python `str.upper()`. -/
def upperL (s : Str) : Str := s.map pyUpperChar

/-- Python `str.lower()`. -/
def lowerL (s : Str) : Str := s.map pyLowerChar

/-- The special-cased key of the domain rule. -/
def vinculoKey : Str := "VINCULO_COM_TRABALHO".data

def simStr : Str := "SIM".data

/-- The fixed Justiça-Gratuita clause spliced in for an affirmative
`VINCULO_COM_TRABALHO`. -/
def clausulaJusticaGratuita : Str :=
  ("C)\tDA JUSTIÇA GRATUITA\n\n"
    ++ "Primeiramente, o art. 129, par. único da Lei 8.213/91  garante a isenção quanto a "
    ++ "custas e verbas sucumbenciais nas causas decorrentes de acidente do trabalho.\n\n"
    ++ "Além da isenção garantida pela lei, é importante aludir que a parte Autora não tem "
    ++ "condições de arcar com quaisquer custas, despesas e/ou honorários advocatícios sem "
    ++ "prejuízo do próprio sustento.\n\n"
    ++ "Portanto, requer-se o reconhecimento da isenção conferida pelo art. 129, par. único "
    ++ "da Lei 8.213/91, abstendo a parte autora de qualquer ônus monetário no presente caso "
    ++ "ou, que sejam deferidos os benefícios da justiça gratuita, nos moldes Lei 1.060/50, "
    ++ "bem como, artigo 98 e seguintes do CPC, considerando declaração de hipossuficiência "
    ++ "e provas a ela anexadas.").data

/-- The copying loop of `preencher_modelo_word`: values `None` are skipped and
every remaining value is kept in trimmed form unless blank after trimming.
The input record is a JSON object, so its keys are unique. -/
def buildPrep : List (Str × Option Str) → List (Str × Str)
  | [] => []
  | (_, none) :: rest => buildPrep rest
  | (chave, some v) :: rest =>
    let t := stripL v
    if t = [] then buildPrep rest else (chave, t) :: buildPrep rest

/-- Python dict assignment `m[k] = v`: overwrite in place or append. -/
def upsert : List (Str × Str) → Str → Str → List (Str × Str)
  | [], k, v => [(k, v)]
  | (k', v') :: rest, k, v =>
    if k' = k then (k', v) :: rest else (k', v') :: upsert rest k v

/-- The data preparation of `preencher_modelo_word` (lines 78-110): copy and
trim, then apply the special rule for `VINCULO_COM_TRABALHO` once on the
record, replacing an affirmative value with the fixed clause and any other
value with the empty string. -/
def preparar (dados : List (Str × Option Str)) : List (Str × Str) :=
  let prep := buildPrep dados
  match lookupS prep vinculoKey with
  | none => prep
  | some v =>
    if stripL (upperL v) = simStr then upsert prep vinculoKey clausulaJusticaGratuita
    else upsert prep vinculoKey []

/-- The fenced-code-block marker. -/
def fenceMarker : Str := "```".data

/-- Python `str.splitlines()` for texts whose line breaks are newlines. -/
def splitlinesL : Str → List Str
  | [] => []
  | c :: rest =>
    if c = '\n' then [] :: splitlinesL rest
    else
      match splitlinesL rest with
      | [] => [[c]]
      | l :: ls => (c :: l) :: ls

/-- Python `"\n".join(...)`. -/
def joinNL : List Str → Str
  | [] => []
  | [l] => l
  | l :: ls => l ++ '\n' :: joinNL ls

/-- The second removal step of `_extrair_json_puro`: drop the last line when
it starts with the fence marker. -/
def removeTrailingFence (linhas : List Str) : List Str :=
  match linhas.getLast? with
  | some ll => if fenceMarker.isPrefixOf ll then linhas.dropLast else linhas
  | none => linhas

/-- `_extrair_json_puro`: strip the text; when it starts with a fence marker,
drop the first line (which starts with the marker) and, if present, a trailing
fence line, and return the remaining lines joined and stripped. -/
def extrairJsonPuro (texto : Str) : Str :=
  let t := stripL texto
  if fenceMarker.isPrefixOf t then
    let linhas := splitlinesL t
    let linhas1 :=
      match linhas with
      | [] => ([] : List Str)
      | l0 :: rest => if fenceMarker.isPrefixOf l0 then rest else l0 :: rest
    stripL (joinNL (removeTrailingFence linhas1))
  else t

/-- A decoded JSON top-level value: an object (with possibly-null string
fields) or anything else. -/
inductive Json
  | obj (fields : List (Str × Option Str))
  | nonObj
deriving DecidableEq

/-- The environment of one `analisar_pdfs` run: the file system, the remote
agent client, the JSON decoder and the Word filler, each with the outcomes
they would produce. -/
structure Env where
  pathExists : Str → Bool
  isFile : Str → Bool
  clientOk : Bool
  upload : Str → Except Str Str
  analyze : List Str → Except Str (Option Str)
  jsonLoads : Str → Except Str Json
  fillWord : List (Str × Option Str) → Except Str Str
  deleteOk : Str → Bool

/-- The observable calls a run makes, in order. -/
inductive Ev
  | getClient
  | upload (p : Str)
  | analyze (ids : List Str)
  | delete (id : Str) (ok : Bool)
deriving DecidableEq

/-- A path separator (the program runs on Windows or Posix). -/
def isSep (c : Char) : Bool := c = '/' ∨ c = '\\'

/-- `pathlib.Path(p).name`: the last nonempty path component. -/
def nameOf (p : Str) : Str :=
  ((p.reverse.dropWhile isSep).takeWhile (fun c => ¬ isSep c)).reverse

/-- `pathlib.Path(p).suffix`: the final extension of the name, empty when the
only dot is leading or trailing. -/
def suffixOf (p : Str) : Str :=
  let nm := nameOf p
  let rext := nm.reverse.takeWhile (fun c => c ≠ '.')
  match nm.reverse.dropWhile (fun c => c ≠ '.') with
  | [] => []
  | _ :: rstem => if rstem ≠ [] ∧ rext ≠ [] then '.' :: rext.reverse else []

def pdfExt : Str := ".pdf".data

def erroNenhumPdf : Str := "Erro: nenhum PDF informado.".data

def erroConsultarIA (e : Str) : Str := "Erro ao consultar a IA: ".data ++ e

def semConteudo : Str := "(Sem conteúdo retornado pelo agente.)".data

def avisoWord (e : Str) : Str :=
  "\n\n[AVISO] Não foi possível gerar o Word a partir da resposta JSON: ".data ++ e

def sucessoWord (caminho : Str) : Str :=
  "\n\n✅ Petição Word gerada em:\n".data ++ caminho

def naoDicionario : Str := "JSON não é um objeto/dicionário.".data

def apiKeyErro : Str := "OPENAI_API_KEY não encontrada.".data

/-- The validation loop of `analisar_pdfs`: each path must exist, be a regular
file and carry the `.pdf` extension case-insensitively; the first offender
aborts with its message. -/
def validar (env : Env) : List Str → Except Str (List Str)
  | [] => Except.ok []
  | p :: ps =>
    if ¬ (env.pathExists p = true ∧ env.isFile p = true) then
      Except.error ("Erro: arquivo não encontrado: ".data ++ p)
    else if lowerL (suffixOf p) ≠ pdfExt then
      Except.error ("Erro: arquivo não é PDF: ".data ++ p)
    else
      match validar env ps with
      | Except.error e => Except.error e
      | Except.ok v => Except.ok (p :: v)

/-- The upload loop: upload each file in order, collecting the returned
artifact identifiers; a raised upload aborts the loop, keeping the
identifiers collected so far.  Returns (identifiers, events, error). -/
def uploads (env : Env) : List Str → List Str × List Ev × Option Str
  | [] => ([], [], none)
  | p :: ps =>
    match env.upload p with
    | Except.error e => ([], [Ev.upload p], some e)
    | Except.ok fid =>
      let r := uploads env ps
      (fid :: r.1, Ev.upload p :: r.2.1, r.2.2)

/-- The `gerar_word` block of `analisar_pdfs`: extract the JSON text, decode
it, require an object, fill the Word model; any failure is reported inline as
an `[AVISO]` note, success appends the output path. -/
def fillNote (env : Env) (saida : Str) : Str :=
  match env.jsonLoads (extrairJsonPuro saida) with
  | Except.error e => avisoWord e
  | Except.ok Json.nonObj => avisoWord naoDicionario
  | Except.ok (Json.obj dados) =>
    match env.fillWord dados with
    | Except.error e => avisoWord e
    | Except.ok caminho => sucessoWord caminho

/-- `analisar_pdfs` from `main.py`: validation, client, uploads, one analysis
call, optional Word generation, and the finally-block that issues one
best-effort delete per uploaded artifact.  The result is `Except.error` only
for the uncaught missing-credential error; every caught failure is returned
as an ordinary string. -/
def analisarPdfs (env : Env) (caminhosPdfs : List Str) (gerarWord : Bool) :
    Except Str Str × List Ev :=
  if caminhosPdfs = [] then (Except.ok erroNenhumPdf, [])
  else
    match validar env (caminhosPdfs.take 5) with
    | Except.error msg => (Except.ok msg, [])
    | Except.ok pdfsValidos =>
      if env.clientOk = false then (Except.error apiKeyErro, [Ev.getClient])
      else
        let up := uploads env pdfsValidos
        let delEvs := up.1.map (fun fid => Ev.delete fid (env.deleteOk fid))
        match up.2.2 with
        | some e => (Except.ok (erroConsultarIA e), Ev.getClient :: up.2.1 ++ delEvs)
        | none =>
          match env.analyze up.1 with
          | Except.error e =>
            (Except.ok (erroConsultarIA e),
              Ev.getClient :: up.2.1 ++ [Ev.analyze up.1] ++ delEvs)
          | Except.ok body =>
            let s0 := stripL (body.getD [])
            let saida := if s0 = [] then semConteudo else s0
            let saida2 := if gerarWord then saida ++ fillNote env saida else saida
            (Except.ok saida2, Ev.getClient :: up.2.1 ++ [Ev.analyze up.1] ++ delEvs)

/-- `analisar_pdfs` from `te.py`: the same pipeline without the optional Word
generation step. -/
def teAnalisarPdfs (env : Env) (caminhosPdfs : List Str) : Except Str Str × List Ev :=
  if caminhosPdfs = [] then (Except.ok erroNenhumPdf, [])
  else
    match validar env (caminhosPdfs.take 5) with
    | Except.error msg => (Except.ok msg, [])
    | Except.ok pdfsValidos =>
      if env.clientOk = false then (Except.error apiKeyErro, [Ev.getClient])
      else
        let up := uploads env pdfsValidos
        let delEvs := up.1.map (fun fid => Ev.delete fid (env.deleteOk fid))
        match up.2.2 with
        | some e => (Except.ok (erroConsultarIA e), Ev.getClient :: up.2.1 ++ delEvs)
        | none =>
          match env.analyze up.1 with
          | Except.error e =>
            (Except.ok (erroConsultarIA e),
              Ev.getClient :: up.2.1 ++ [Ev.analyze up.1] ++ delEvs)
          | Except.ok body =>
            let s0 := stripL (body.getD [])
            let saida := if s0 = [] then semConteudo else s0
            (Except.ok saida, Ev.getClient :: up.2.1 ++ [Ev.analyze up.1] ++ delEvs)

/-- The artifact identifiers a run successfully obtains from uploads. -/
def uploadedIds (env : Env) (caminhosPdfs : List Str) : List Str :=
  if caminhosPdfs = [] then []
  else
    match validar env (caminhosPdfs.take 5) with
    | Except.error _ => []
    | Except.ok pdfsValidos =>
      if env.clientOk = false then [] else (uploads env pdfsValidos).1

/-- A path passing all three validation checks. -/
def isValidPdfPath (env : Env) (p : Str) : Bool :=
  env.pathExists p && env.isFile p && (lowerL (suffixOf p) = pdfExt)

/-- The first offending path of a list, if any. -/
def firstInvalid (env : Env) (l : List Str) : Option Str :=
  l.find? (fun p => ! isValidPdfPath env p)

/-- The error message validation produces for an offending path. -/
def invalidMsg (env : Env) (p : Str) : Str :=
  if env.pathExists p = true ∧ env.isFile p = true then
    "Erro: arquivo não é PDF: ".data ++ p
  else "Erro: arquivo não encontrado: ".data ++ p

def evDeleteId : Ev → Option Str
  | Ev.delete i _ => some i
  | _ => none

def evUploadPath : Ev → Option Str
  | Ev.upload p => some p
  | _ => none

def evAnalyzeArg : Ev → Option (List Str)
  | Ev.analyze ids => some ids
  | _ => none

/-- The same environment with a different delete-outcome oracle. -/
def envWithDelete (env : Env) (d : Str → Bool) : Env := { env with deleteOk := d }

/-- A concrete environment used by witnesses: every path exists and is a
regular file, uploads echo the path, analysis returns `R`, the JSON decoder
returns a fixed object and the Word filler a fixed output path. -/
def env0 : Env :=
  { pathExists := fun _ => true, isFile := fun _ => true, clientOk := true,
    upload := fun p => Except.ok p,
    analyze := fun _ => Except.ok (some "R".data),
    jsonLoads := fun _ => Except.ok (Json.obj [("A".data, some "b".data)]),
    fillWord := fun _ => Except.ok "out.docx".data,
    deleteOk := fun _ => true }

/-- The analysis text a run returns for a given response body: stripped, with
the empty body replaced by the no-content sentinel. -/
def saidaOf (body : Option Str) : Str :=
  if stripL (body.getD []) = [] then semConteudo else stripL (body.getD [])

/-- Six valid input paths, used to witness the truncation behaviour. -/
def c6w : List Str :=
  ["a.pdf".data, "b.pdf".data, "c.pdf".data, "d.pdf".data, "e.pdf".data, "f.pdf".data]

/-- A notification emitted by the background worker (`IAWorker` signals). -/
inductive WEv
  | progress (p : Nat)
  | ok (s : Str)
  | fail (s : Str)
deriving DecidableEq

def cancelMsg : Str := "Execução cancelada.".data

/-- One synthetic-progress loop of `IAWorker.run`: before each emission the
cancel flag is sampled (at consecutive checkpoints); cancellation emits the
failure notification and stops.  Returns (events, next checkpoint, completed). -/
def loopEmit (cancel : Nat → Bool) : Nat → List Nat → List WEv × Nat × Bool
  | k, [] => ([], k, true)
  | k, p :: ps =>
    if cancel k then ([WEv.fail cancelMsg], k + 1, false)
    else
      let r := loopEmit cancel (k + 1) ps
      (WEv.progress p :: r.1, r.2.1, r.2.2)

/-- `range(0, 15, 5)`. -/
def fase1Vals : List Nat := List.range' 0 3 5

/-- `range(45, 105, 5)`. -/
def fase2Vals : List Nat := List.range' 45 12 5

/-- `IAWorker.run`: preamble progress loop, a cancel checkpoint, the real work
call (which may raise), another checkpoint, the postamble progress loop
(emitting `min(p, 100)`), and exactly one terminal signal. -/
def workerRun (cancel : Nat → Bool) (work : Except Str Str) : List WEv :=
  let r1 := loopEmit cancel 0 fase1Vals
  if r1.2.2 = false then r1.1
  else if cancel r1.2.1 then r1.1 ++ [WEv.fail cancelMsg]
  else
    match work with
    | Except.error e => r1.1 ++ [WEv.fail (erroConsultarIA e)]
    | Except.ok resp =>
      if cancel (r1.2.1 + 1) then r1.1 ++ [WEv.fail cancelMsg]
      else
        let r2 := loopEmit cancel (r1.2.1 + 2) (fase2Vals.map (fun p => min p 100))
        if r2.2.2 = false then r1.1 ++ r2.1
        else r1.1 ++ r2.1 ++ [WEv.ok resp]

/-- A terminal notification (success or failure). -/
def isTerminal : WEv → Bool
  | WEv.progress _ => false
  | _ => true

/-! ### Lemmas: token scanner and paragraph rewriter -/

theorem substSpec_nil (m : List (Str × Str)) : substSpec m [] = [] := by
  rw [substSpec]

theorem substSpec_open_none (m : List (Str × Str)) (rest : Str)
    (h : findClose rest = none) : substSpec m ('{' :: rest) = '{' :: rest := by
  rw [substSpec]
  split
  · split
    · rfl
    · rename_i chave after heq
      rw [h] at heq
      exact absurd heq (by simp)
  · rename_i hne
    exact absurd rfl hne

theorem substSpec_open_some (m : List (Str × Str)) (rest chave after : Str)
    (h : findClose rest = some (chave, after)) :
    substSpec m ('{' :: rest) = resolveKey m chave ++ substSpec m after := by
  rw [substSpec]
  split
  · split
    · rename_i heq
      rw [h] at heq
      exact absurd heq (by simp)
    · rename_i chave' after' heq
      rw [h] at heq
      simp only [Option.some.injEq, Prod.mk.injEq] at heq
      rw [← heq.1, ← heq.2]
  · rename_i hne
    exact absurd rfl hne

theorem substSpec_cons_other (m : List (Str × Str)) (c : Char) (rest : Str)
    (h : c ≠ '{') : substSpec m (c :: rest) = c :: substSpec m rest := by
  rw [substSpec]
  split
  · rename_i heq
    exact absurd heq h
  · rfl

theorem segmentos_nil (m : List (Str × Str)) : segmentos m [] = [] := by
  rw [segmentos]

theorem segmentos_open_none (m : List (Str × Str)) (rest : Str)
    (h : findClose rest = none) : segmentos m ('{' :: rest) = [(false, '{' :: rest)] := by
  rw [segmentos]
  split
  · split
    · rfl
    · rename_i chave after heq
      rw [h] at heq
      exact absurd heq (by simp)
  · rename_i hne
    exact absurd rfl hne

theorem segmentos_open_some (m : List (Str × Str)) (rest chave after : Str)
    (h : findClose rest = some (chave, after)) :
    segmentos m ('{' :: rest) = (true, resolveKey m chave) :: segmentos m after := by
  rw [segmentos]
  split
  · split
    · rename_i heq
      rw [h] at heq
      exact absurd heq (by simp)
    · rename_i chave' after' heq
      rw [h] at heq
      simp only [Option.some.injEq, Prod.mk.injEq] at heq
      rw [← heq.1, ← heq.2]
  · rename_i hne
    exact absurd rfl hne

theorem segmentos_cons_other (m : List (Str × Str)) (c : Char) (rest : Str)
    (h : c ≠ '{') :
    segmentos m (c :: rest) =
      (false, c :: rest.takeWhile notOpen) :: segmentos m (rest.dropWhile notOpen) := by
  rw [segmentos]
  split
  · rename_i heq
    exact absurd heq h
  · rfl

theorem substSpec_append_fixed (m : List (Str × Str)) :
    ∀ (f r : Str), (∀ c ∈ f, c ≠ '{') → substSpec m (f ++ r) = f ++ substSpec m r := by
  intro f
  induction f with
  | nil => intro r _; simp
  | cons c f ih =>
    intro r hc
    rw [List.cons_append, substSpec_cons_other m c _ (hc c (List.mem_cons_self c f))]
    rw [ih r (fun x hx => hc x (List.mem_cons_of_mem c hx))]
    rfl

theorem substSpec_no_open (m : List (Str × Str)) :
    ∀ {l : Str}, '{' ∉ l → substSpec m l = l := by
  intro l
  induction l with
  | nil => intro _; exact substSpec_nil m
  | cons c rest ih =>
    intro h
    simp only [List.mem_cons, not_or] at h
    rw [substSpec_cons_other m c rest (Ne.symm h.1), ih h.2]

theorem substSpec_no_close (m : List (Str × Str)) :
    ∀ {l : Str}, '}' ∉ l → substSpec m l = l := by
  intro l
  induction l with
  | nil => intro _; exact substSpec_nil m
  | cons c rest ih =>
    intro h
    simp only [List.mem_cons, not_or] at h
    by_cases hc : c = '{'
    · subst hc
      exact substSpec_open_none m rest (findClose_none_of_not_mem h.2)
    · rw [substSpec_cons_other m c rest hc, ih h.2]

theorem segmentos_join (m : List (Str × Str)) :
    ∀ (n : Nat) (l : Str), l.length ≤ n →
      ((segmentos m l).map Prod.snd).flatten = substSpec m l := by
  intro n
  induction n with
  | zero =>
    intro l hl
    have : l = [] := List.length_eq_zero.mp (Nat.le_zero.mp hl)
    subst this
    rw [segmentos_nil, substSpec_nil]
    rfl
  | succ n ih =>
    intro l hl
    match l with
    | [] =>
      rw [segmentos_nil, substSpec_nil]
      rfl
    | c :: rest =>
      by_cases hc : c = '{'
      · subst hc
        cases hfc : findClose rest with
        | none =>
          rw [segmentos_open_none m rest hfc, substSpec_open_none m rest hfc]
          simp
        | some ka =>
          obtain ⟨chave, after⟩ := ka
          rw [segmentos_open_some m rest chave after hfc,
            substSpec_open_some m rest chave after hfc]
          simp only [List.map_cons, List.flatten_cons]
          rw [ih after]
          have := findClose_length hfc
          simp only [List.length_cons] at hl
          omega
      · rw [segmentos_cons_other m c rest hc]
        simp only [List.map_cons, List.flatten_cons]
        rw [ih (rest.dropWhile notOpen)]
        · conv_rhs =>
            rw [show (c :: rest : Str) =
              (c :: rest.takeWhile notOpen) ++ rest.dropWhile notOpen by
                rw [List.cons_append, List.takeWhile_append_dropWhile]]
          rw [substSpec_append_fixed m (c :: rest.takeWhile notOpen) _ ?_]
          intro x hx
          rcases List.mem_cons.mp hx with rfl | hx
          · exact hc
          · have := List.mem_takeWhile_imp hx
            simpa [notOpen] using this
        · have := length_dropWhile_le notOpen rest
          simp only [List.length_cons] at hl
          omega

theorem runs_text_flatten (segs : List (Bool × Str)) :
    ((segs.filterMap (fun s => if s.2 = [] then none else some (mkRun s.1 s.2))).map
        TRun.text).flatten = (segs.map Prod.snd).flatten := by
  induction segs with
  | nil => rfl
  | cons s rest ih =>
    rw [List.filterMap_cons]
    by_cases hs : s.2 = []
    · simp only [if_pos hs]
      rw [ih]
      simp [hs]
    · simp only [if_neg hs, List.map_cons, List.flatten_cons]
      rw [ih]
      congr 1
      cases s.1 <;> simp [mkRun]

/-- C1: for every paragraph text and every Data Record, concatenating the run
texts produced by the paragraph rewriter yields the original flattened text
with each well-formed placeholder span replaced by its resolved value (empty
when the key is absent), literal braces outside spans preserved, and an
unterminated opening brace kept verbatim to the end. -/
theorem claim_C1 (m : List (Str × Str)) (p : Paragraph) :
    paraText (processarParagrafo m p) = substSpec m (paraText p) := by
  simp only [processarParagrafo]
  by_cases hfast : '{' ∉ paraText p ∨ '}' ∉ paraText p
  · rw [if_pos hfast]
    rcases hfast with h | h
    · exact (substSpec_no_open m h).symm
    · exact (substSpec_no_close m h).symm
  · rw [if_neg hfast]
    show ((((segmentos m (paraText p)).filterMap
        (fun s => if s.2 = [] then none else some (mkRun s.1 s.2))).map
          TRun.text).flatten) = substSpec m (paraText p)
    rw [runs_text_flatten]
    exact segmentos_join m (paraText p).length (paraText p) le_rfl

/-- C8: the paragraph rewriter preserves the paragraph-level style even though
it rebuilds the whole run structure, and a paragraph whose text lacks an
opening brace or lacks a closing brace is left entirely unchanged. -/
theorem claim_C8 (m : List (Str × Str)) (p : Paragraph) :
    (processarParagrafo m p).style = p.style ∧
      ('{' ∉ paraText p ∨ '}' ∉ paraText p → processarParagrafo m p = p) := by
  constructor
  · simp only [processarParagrafo]
    by_cases hfast : '{' ∉ paraText p ∨ '}' ∉ paraText p
    · rw [if_pos hfast]
    · rw [if_neg hfast]
  · intro h
    simp only [processarParagrafo]
    rw [if_pos h]

/-- Witness for C8 at concrete inputs: a paragraph with a placeholder keeps
its style, and a brace-free paragraph is returned unchanged. -/
theorem claim_C8_witness :
    (processarParagrafo [("NOME".data, "X".data)]
        { style := "Normal".data,
          runs := [{ text := "Ola ".data }, { text := "xNOMEx".data }] }).style
      = "Normal".data ∧
    processarParagrafo [] { style := "Normal".data, runs := [{ text := "sem chaves".data }] }
      = { style := "Normal".data, runs := [{ text := "sem chaves".data }] } := by
  constructor
  · exact (claim_C8 [("NOME".data, "X".data)] _).1
  · exact (claim_C8 [] _).2 (by decide)

/-! ### Lemmas: whitespace, stripping, and the data preparation rule -/

theorem applyTable_ws (tbl : List (Char × Char))
    (h : ∀ p ∈ tbl, p.1.isWhitespace = false ∧ p.2.isWhitespace = false) (c : Char) :
    (applyTable tbl c).isWhitespace = c.isWhitespace := by
  induction tbl with
  | nil => rfl
  | cons ab rest ih =>
    obtain ⟨a, b⟩ := ab
    by_cases hc : c = a
    · subst hc
      have hab := h (c, b) (List.mem_cons_self _ _)
      unfold applyTable lookupCh
      rw [if_pos rfl]
      show b.isWhitespace = c.isWhitespace
      rw [hab.1, hab.2]
    · unfold applyTable lookupCh
      rw [if_neg hc]
      exact ih (fun p hp => h p (List.mem_cons_of_mem _ hp))

theorem isWs_pyUpperChar (c : Char) : (pyUpperChar c).isWhitespace = c.isWhitespace := by
  unfold pyUpperChar
  exact applyTable_ws upperTable (by decide) c

theorem dropWhile_idem {α : Type} (p : α → Bool) (l : List α) :
    List.dropWhile p (List.dropWhile p l) = List.dropWhile p l := by
  induction l with
  | nil => rfl
  | cons c t ih =>
    by_cases h : p c = true
    · rw [List.dropWhile_cons_of_pos h]; exact ih
    · rw [List.dropWhile_cons_of_neg h, List.dropWhile_cons_of_neg h]

theorem lstripL_idem (l : Str) : lstripL (lstripL l) = lstripL l := by
  unfold lstripL
  exact dropWhile_idem _ l

theorem rstripL_idem (l : Str) : rstripL (rstripL l) = rstripL l := by
  unfold rstripL
  rw [List.reverse_reverse, dropWhile_idem]

theorem dropWhile_append_eq_self {α : Type} {p : α → Bool} {A B : List α}
    (h : List.dropWhile p (A ++ B) = A ++ B) : List.dropWhile p A = A := by
  cases A with
  | nil => rfl
  | cons a A' =>
    rw [List.cons_append, List.dropWhile_cons] at h
    by_cases hp : p a = true
    · rw [if_pos hp] at h
      have hle := length_dropWhile_le p (A' ++ B)
      rw [h] at hle
      simp only [List.length_cons, List.length_append] at hle
      omega
    · rw [List.dropWhile_cons_of_neg hp]

theorem rstrip_lstrip_of_rstripped {w : Str} (hw : rstripL w = w) :
    rstripL (lstripL w) = lstripL w := by
  have hrev : w.reverse.dropWhile Char.isWhitespace = w.reverse := by
    have h1 := congrArg List.reverse hw
    rw [rstripL, List.reverse_reverse] at h1
    exact h1
  have hsplit : w.reverse =
      (w.dropWhile Char.isWhitespace).reverse ++ (w.takeWhile Char.isWhitespace).reverse := by
    rw [← List.reverse_append, List.takeWhile_append_dropWhile]
  rw [hsplit] at hrev
  have h2 := dropWhile_append_eq_self hrev
  unfold rstripL lstripL
  rw [h2, List.reverse_reverse]

theorem stripL_idem (s : Str) : stripL (stripL s) = stripL s := by
  show lstripL (rstripL (lstripL (rstripL s))) = lstripL (rstripL s)
  rw [rstrip_lstrip_of_rstripped (rstripL_idem s)]
  exact lstripL_idem _

theorem dropWhileWs_map (f : Char → Char) (hf : ∀ c, (f c).isWhitespace = c.isWhitespace) :
    ∀ l : Str, (l.map f).dropWhile Char.isWhitespace =
      (l.dropWhile Char.isWhitespace).map f := by
  intro l
  induction l with
  | nil => rfl
  | cons c t ih =>
    rw [List.map_cons]
    by_cases h : c.isWhitespace = true
    · rw [List.dropWhile_cons_of_pos (by rw [hf]; exact h), List.dropWhile_cons_of_pos h]
      exact ih
    · rw [List.dropWhile_cons_of_neg (by rw [hf]; exact h), List.dropWhile_cons_of_neg h,
        List.map_cons]

theorem stripL_upperL (s : Str) : stripL (upperL s) = upperL (stripL s) := by
  unfold stripL lstripL rstripL upperL
  rw [← List.map_reverse, dropWhileWs_map pyUpperChar isWs_pyUpperChar,
    ← List.map_reverse, dropWhileWs_map pyUpperChar isWs_pyUpperChar]

theorem stripUpperStrip (v : Str) :
    stripL (upperL (stripL v)) = upperL (stripL v) := by
  rw [stripL_upperL, stripL_idem]

theorem lookupS_buildPrep_not_mem :
    ∀ {dados : List (Str × Option Str)} {k : Str},
      k ∉ dados.map Prod.fst → lookupS (buildPrep dados) k = none := by
  intro dados
  induction dados with
  | nil => intro k _; rfl
  | cons kv rest ih =>
    intro k h
    obtain ⟨k', vo⟩ := kv
    simp only [List.map_cons, List.mem_cons, not_or] at h
    cases vo with
    | none => exact ih h.2
    | some v =>
      simp only [buildPrep]
      by_cases hb : stripL v = []
      · rw [if_pos hb]; exact ih h.2
      · rw [if_neg hb]
        show (if k' = k then some (stripL v) else lookupS (buildPrep rest) k) = none
        rw [if_neg (fun hk => h.1 hk.symm)]
        exact ih h.2

theorem lookup_buildPrep :
    ∀ (dados : List (Str × Option Str)) (k : Str),
      (dados.map Prod.fst).Nodup →
      lookupS (buildPrep dados) k =
        match lookupS dados k with
        | some (some v) => if stripL v = [] then none else some (stripL v)
        | _ => none := by
  intro dados
  induction dados with
  | nil => intro k _; rfl
  | cons kv rest ih =>
    intro k hnd
    obtain ⟨k', vo⟩ := kv
    simp only [List.map_cons, List.nodup_cons] at hnd
    by_cases hk : k' = k
    · subst hk
      cases vo with
      | none =>
        rw [show buildPrep ((k', none) :: rest) = buildPrep rest from rfl]
        rw [lookupS_buildPrep_not_mem hnd.1]
        rw [show lookupS ((k', none) :: rest : List (Str × Option Str)) k' = some none from by
          simp [lookupS]]
      | some v =>
        simp only [buildPrep]
        rw [show lookupS ((k', some v) :: rest : List (Str × Option Str)) k' = some (some v) from by
          simp [lookupS]]
        by_cases hb : stripL v = []
        · rw [if_pos hb]
          change lookupS (buildPrep rest) k' =
            if stripL v = [] then none else some (stripL v)
          rw [if_pos hb]
          exact lookupS_buildPrep_not_mem hnd.1
        · rw [if_neg hb]
          change lookupS ((k', stripL v) :: buildPrep rest) k' =
            if stripL v = [] then none else some (stripL v)
          rw [if_neg hb]
          show (if k' = k' then some (stripL v) else lookupS (buildPrep rest) k') = _
          rw [if_pos rfl]
    · have hstep : lookupS ((k', vo) :: rest : List (Str × Option Str)) k = lookupS rest k := by
        simp [lookupS, hk]
      rw [hstep]
      cases vo with
      | none => exact ih k hnd.2
      | some v =>
        simp only [buildPrep]
        by_cases hb : stripL v = []
        · rw [if_pos hb]; exact ih k hnd.2
        · rw [if_neg hb]
          show (if k' = k then some (stripL v) else lookupS (buildPrep rest) k) = _
          rw [if_neg hk]
          exact ih k hnd.2

theorem lookupS_upsert (m : List (Str × Str)) (k v : Str) :
    lookupS (upsert m k v) k = some v := by
  induction m with
  | nil => simp [upsert, lookupS]
  | cons kv rest ih =>
    obtain ⟨k', v'⟩ := kv
    by_cases hk : k' = k
    · simp [upsert, hk, lookupS]
    · simp only [upsert, if_neg hk]
      show (if k' = k then some v' else lookupS (upsert rest k v) k) = some v
      rw [if_neg hk]
      exact ih

/-- C2: in a Data Record (a JSON object, so keys are unique) containing
`VINCULO_COM_TRABALHO` with a non-null, non-blank value, the key resolves to
the fixed Justiça-Gratuita clause exactly when the trimmed, uppercased value
is `SIM`, and to the empty string for any other value; the replacement is a
single update of the prepared record.  When the key is absent, null, or blank
after trimming, the placeholder resolves to the empty string by the base rule. -/
theorem claim_C2 (dados : List (Str × Option Str)) (hnd : (dados.map Prod.fst).Nodup) :
    (∀ v, lookupS dados vinculoKey = some (some v) → stripL v ≠ [] →
      resolveKey (preparar dados) vinculoKey =
        if upperL (stripL v) = simStr then clausulaJusticaGratuita else []) ∧
    ((∀ v, lookupS dados vinculoKey = some (some v) → stripL v = []) →
      resolveKey (preparar dados) vinculoKey = []) := by
  have hlp := lookup_buildPrep dados vinculoKey hnd
  constructor
  · intro v hv hb
    rw [hv] at hlp
    have hlp2 : lookupS (buildPrep dados) vinculoKey =
        if stripL v = [] then none else some (stripL v) := hlp
    rw [if_neg hb] at hlp2
    simp only [preparar]
    rw [hlp2]
    show resolveKey
        (if stripL (upperL (stripL v)) = simStr then
          upsert (buildPrep dados) vinculoKey clausulaJusticaGratuita
        else upsert (buildPrep dados) vinculoKey []) vinculoKey = _
    rw [stripUpperStrip v]
    by_cases hs : upperL (stripL v) = simStr
    · rw [if_pos hs, if_pos hs]
      unfold resolveKey
      rw [lookupS_upsert]
      rfl
    · rw [if_neg hs, if_neg hs]
      unfold resolveKey
      rw [lookupS_upsert]
      rfl
  · intro hall
    have hnone : lookupS (buildPrep dados) vinculoKey = none := by
      rw [hlp]
      cases hvk : lookupS dados vinculoKey with
      | none => rfl
      | some vo =>
        cases vo with
        | none => rfl
        | some v => simp [hall v hvk]
    simp only [preparar]
    rw [hnone]
    show resolveKey (buildPrep dados) vinculoKey = []
    unfold resolveKey
    rw [hnone]
    rfl

/-- Witness for C2 at concrete records: value `nao` resolves per the rule
(to the empty string), and a record without the key resolves to the empty
string. -/
theorem claim_C2_witness :
    resolveKey (preparar [(vinculoKey, some "nao".data)]) vinculoKey =
      (if upperL (stripL "nao".data) = simStr then clausulaJusticaGratuita else []) ∧
    resolveKey (preparar [("A".data, some " ".data)]) vinculoKey = [] := by
  constructor
  · exact (claim_C2 [(vinculoKey, some "nao".data)] (by decide)).1 "nao".data
      (by decide) (by decide)
  · refine (claim_C2 [("A".data, some " ".data)] (by decide)).2 ?_
    intro v hv
    have h0 : lookupS [("A".data, some " ".data)] vinculoKey = none := by decide
    rw [h0] at hv
    cases hv

/-! ### Lemmas: JSON extraction from fenced code blocks -/

theorem splitlinesL_ne_nil : ∀ {s : Str}, s ≠ [] → splitlinesL s ≠ [] := by
  intro s hs
  cases s with
  | nil => exact absurd rfl hs
  | cons c rest =>
    unfold splitlinesL
    by_cases hc : c = '\n'
    · rw [if_pos hc]
      simp
    · rw [if_neg hc]
      cases h : splitlinesL rest with
      | nil => simp
      | cons l ls => simp

theorem splitlinesL_cons_nl (rest : Str) : splitlinesL ('\n' :: rest) = [] :: splitlinesL rest := by
  conv_lhs => rw [splitlinesL]
  rw [if_pos rfl]

theorem splitlinesL_cons_other {c : Char} (rest : Str) (hc : c ≠ '\n') :
    splitlinesL (c :: rest) =
      match splitlinesL rest with
      | [] => [[c]]
      | l :: ls => (c :: l) :: ls := by
  conv_lhs => rw [splitlinesL]
  rw [if_neg hc]

theorem splitlinesL_append_nl :
    ∀ (a t : Str), t ≠ [] →
      splitlinesL (a ++ '\n' :: t) = splitlinesL (a ++ ['\n']) ++ splitlinesL t := by
  intro a
  induction a with
  | nil =>
    intro t ht
    rw [List.nil_append, List.nil_append, splitlinesL_cons_nl]
    rfl
  | cons c a' ih =>
    intro t ht
    by_cases hc : c = '\n'
    · subst hc
      rw [List.cons_append, splitlinesL_cons_nl, ih t ht, List.cons_append,
        splitlinesL_cons_nl, List.cons_append]
    · rw [List.cons_append, splitlinesL_cons_other _ hc, ih t ht]
      rw [List.cons_append, splitlinesL_cons_other _ hc]
      cases h1 : splitlinesL (a' ++ ['\n']) with
      | nil => exact absurd h1 (splitlinesL_ne_nil (by simp))
      | cons l ls => rfl

theorem joinNL_cons_cons (c : Char) (h : Str) (t : List Str) :
    joinNL ((c :: h) :: t) = c :: joinNL (h :: t) := by
  cases t with
  | nil => rfl
  | cons t0 ts => rfl

theorem joinNL_nil_cons {ls : List Str} (h : ls ≠ []) :
    joinNL ([] :: ls) = '\n' :: joinNL ls := by
  cases ls with
  | nil => exact absurd rfl h
  | cons l ls' => rfl

theorem joinNL_splitlinesL_keep : ∀ (a : Str), joinNL (splitlinesL (a ++ ['\n'])) = a := by
  intro a
  induction a with
  | nil => rfl
  | cons c a' ih =>
    by_cases hc : c = '\n'
    · subst hc
      rw [List.cons_append, splitlinesL_cons_nl,
        joinNL_nil_cons (splitlinesL_ne_nil (by simp)), ih]
    · rw [List.cons_append, splitlinesL_cons_other _ hc]
      cases h1 : splitlinesL (a' ++ ['\n']) with
      | nil => exact absurd h1 (splitlinesL_ne_nil (by simp))
      | cons l ls =>
        show joinNL ((c :: l) :: ls) = c :: a'
        rw [joinNL_cons_cons, ← h1, ih]

theorem splitlinesL_head_isPrefixOf :
    ∀ (p s : Str), p ≠ [] → '\n' ∉ p → p.isPrefixOf s = true →
      ∃ l0 rest, splitlinesL s = l0 :: rest ∧ p.isPrefixOf l0 = true := by
  intro p
  induction p with
  | nil => intro s h; exact absurd rfl h
  | cons c p' ih =>
    intro s _ hnl hpre
    cases s with
    | nil => simp at hpre
    | cons d s' =>
      rw [List.isPrefixOf_cons₂] at hpre
      have hand := (Bool.and_eq_true _ _).mp hpre
      obtain rfl : c = d := eq_of_beq hand.1
      have hps : p'.isPrefixOf s' = true := hand.2
      have hcnl : c ≠ '\n' := fun h => hnl (h ▸ List.mem_cons_self _ _)
      rw [splitlinesL_cons_other s' hcnl]
      cases p' with
      | nil =>
        cases h2 : splitlinesL s' with
        | nil =>
          refine ⟨[c], [], rfl, ?_⟩
          rw [List.isPrefixOf_cons₂]
          simp
        | cons l ls =>
          refine ⟨c :: l, ls, rfl, ?_⟩
          rw [List.isPrefixOf_cons₂]
          simp
      | cons e p'' =>
        obtain ⟨l0, rest, hsp, hl0⟩ :=
          ih s' (by simp) (fun h => hnl (List.mem_cons_of_mem _ h)) hps
        rw [hsp]
        refine ⟨c :: l0, rest, rfl, ?_⟩
        rw [List.isPrefixOf_cons₂]
        simp [hl0]

theorem lstripL_eq_self {s : Str}
    (h1 : ∀ c, s.head? = some c → c.isWhitespace = false) : lstripL s = s := by
  cases s with
  | nil => rfl
  | cons c t =>
    unfold lstripL
    rw [List.dropWhile_cons_of_neg]
    rw [h1 c rfl]
    simp

theorem rstripL_eq_self {s : Str}
    (h2 : ∀ c, s.getLast? = some c → c.isWhitespace = false) : rstripL s = s := by
  unfold rstripL
  cases hr : s.reverse with
  | nil =>
    have : s = [] := by
      have := congrArg List.reverse hr
      rwa [List.reverse_reverse] at this
    subst this
    rfl
  | cons c t =>
    have hs : s = t.reverse ++ [c] := by
      have h3 := congrArg List.reverse hr
      rw [List.reverse_reverse] at h3
      rw [h3, List.reverse_cons]
    have hlast : s.getLast? = some c := by
      rw [hs]
      exact List.getLast?_concat _
    rw [List.dropWhile_cons_of_neg]
    · rw [← hr, List.reverse_reverse]
    · rw [h2 c hlast]
      simp

theorem stripL_eq_self {s : Str}
    (h1 : ∀ c, s.head? = some c → c.isWhitespace = false)
    (h2 : ∀ c, s.getLast? = some c → c.isWhitespace = false) : stripL s = s := by
  unfold stripL
  rw [rstripL_eq_self h2]
  exact lstripL_eq_self h1

/-- C7: JSON extraction strips the text; on a leading fence marker it removes
the first line and, when the new last line also starts with a fence marker,
that last line, returning the remaining lines joined and stripped; otherwise
it returns the stripped text.  In particular a fenced body and the same body
unfenced extract to the same text (hence the same JSON value). -/
theorem claim_C7 (b texto : Str) (hb : stripL b = b)
    (hnb : fenceMarker.isPrefixOf b = false)
    (hft : fenceMarker.isPrefixOf (stripL texto) = true) :
    (extrairJsonPuro ("```json\n".data ++ b ++ "\n```".data) = b ∧
      extrairJsonPuro b = b) ∧
    extrairJsonPuro texto =
      stripL (joinNL (removeTrailingFence ((splitlinesL (stripL texto)).tail))) := by
  constructor
  · constructor
    · -- the fenced body
      have hstrip : stripL ("```json\n".data ++ b ++ "\n```".data) =
          "```json\n".data ++ b ++ "\n```".data := by
        apply stripL_eq_self
        · intro c hc
          cases hc
          decide
        · intro c hc
          rw [show ("```json\n".data ++ b ++ "\n```".data) =
            ("```json\n".data ++ b ++ "\n``".data) ++ ['`'] from by
              simp [List.append_assoc]] at hc
          rw [List.getLast?_concat] at hc
          cases hc
          decide
      simp only [extrairJsonPuro]
      rw [hstrip]
      rw [if_pos (by rfl :
        fenceMarker.isPrefixOf ("```json\n".data ++ b ++ "\n```".data) = true)]
      have hsplit1 : splitlinesL ("```json\n".data ++ b ++ "\n```".data) =
          "```json".data :: (splitlinesL (b ++ ['\n']) ++ ["```".data]) := by
        have e1 : ("```json\n".data ++ b ++ "\n```".data : Str) =
            "```json".data ++ '\n' :: (b ++ "\n```".data) := by
          simp [List.append_assoc]
        rw [e1, splitlinesL_append_nl "```json".data _ (by simp)]
        have e2 : (b ++ "\n```".data : Str) = b ++ '\n' :: "```".data := rfl
        rw [e2, splitlinesL_append_nl b _ (by simp)]
        rfl
      rw [hsplit1]
      show stripL (joinNL (removeTrailingFence
        (if fenceMarker.isPrefixOf "```json".data = true then
          splitlinesL (b ++ ['\n']) ++ ["```".data]
        else "```json".data :: (splitlinesL (b ++ ['\n']) ++ ["```".data])))) = b
      rw [if_pos (by decide)]
      unfold removeTrailingFence
      rw [List.getLast?_concat]
      show stripL (joinNL
        (if fenceMarker.isPrefixOf "```".data = true then
          (splitlinesL (b ++ ['\n']) ++ ["```".data]).dropLast
        else splitlinesL (b ++ ['\n']) ++ ["```".data])) = b
      rw [if_pos (by decide), List.dropLast_concat, joinNL_splitlinesL_keep, hb]
    · -- the unfenced body
      simp only [extrairJsonPuro]
      rw [hb, if_neg (by simp [hnb])]
  · -- the general fenced description: the first line is removed unconditionally
    simp only [extrairJsonPuro]
    rw [if_pos hft]
    have hne : stripL texto ≠ [] := by
      intro h
      rw [h] at hft
      simp [fenceMarker] at hft
    obtain ⟨l0, rest, hsp, hl0⟩ := splitlinesL_head_isPrefixOf fenceMarker (stripL texto)
      (by decide) (by decide) hft
    rw [hsp]
    show stripL (joinNL (removeTrailingFence
      (if fenceMarker.isPrefixOf l0 = true then rest else l0 :: rest))) =
      stripL (joinNL (removeTrailingFence (l0 :: rest).tail))
    rw [if_pos hl0]
    rfl

/-- Witness for C7: the body `x`, fenced and unfenced, extracts to `x`, and
the general description applies to the concrete fenced text. -/
theorem claim_C7_witness :
    (extrairJsonPuro ("```json\n".data ++ "x".data ++ "\n```".data) = "x".data ∧
      extrairJsonPuro "x".data = "x".data) ∧
    extrairJsonPuro "```json\nx\n```".data =
      stripL (joinNL (removeTrailingFence
        ((splitlinesL (stripL "```json\nx\n```".data)).tail))) :=
  claim_C7 "x".data "```json\nx\n```".data (by decide) (by decide) (by decide)

/-! ### Lemmas: the analysis orchestrator -/

theorem filterMap_deleteId_deletes (d : Str → Bool) (ids : List Str) :
    (ids.map (fun fid => Ev.delete fid (d fid))).filterMap evDeleteId = ids := by
  induction ids with
  | nil => rfl
  | cons i t ih => simp [List.map_cons, List.filterMap_cons, evDeleteId, ih]

theorem filterMap_deleteId_uploads (env : Env) :
    ∀ l : List Str, ((uploads env l).2.1).filterMap evDeleteId = [] := by
  intro l
  induction l with
  | nil => rfl
  | cons p t ih =>
    show ((uploads env (p :: t)).2.1).filterMap evDeleteId = []
    conv_lhs => rw [uploads]
    cases h : env.upload p with
    | error e => simp [List.filterMap_cons, evDeleteId]
    | ok fid => simp [List.filterMap_cons, evDeleteId, ih]

theorem uploads_all_ok (env : Env) (f : Str → Str) :
    ∀ l : List Str, (∀ p ∈ l, env.upload p = Except.ok (f p)) →
      uploads env l = (l.map f, l.map Ev.upload, none) := by
  intro l
  induction l with
  | nil => intro _; rfl
  | cons p t ih =>
    intro h
    have hp := h p (List.mem_cons_self _ _)
    conv_lhs => rw [uploads]
    rw [hp]
    show (f p :: (uploads env t).1, Ev.upload p :: (uploads env t).2.1,
      (uploads env t).2.2) = _
    rw [ih (fun q hq => h q (List.mem_cons_of_mem _ hq))]
    rfl

theorem validar_ok_of_all_valid (env : Env) :
    ∀ l : List Str, (∀ p ∈ l, isValidPdfPath env p = true) →
      validar env l = Except.ok l := by
  intro l
  induction l with
  | nil => intro _; rfl
  | cons p t ih =>
    intro h
    have hp := h p (List.mem_cons_self _ _)
    unfold isValidPdfPath at hp
    have h1 : env.pathExists p = true ∧ env.isFile p = true := by
      constructor
      · exact ((Bool.and_eq_true _ _).mp ((Bool.and_eq_true _ _).mp hp).1).1
      · exact ((Bool.and_eq_true _ _).mp ((Bool.and_eq_true _ _).mp hp).1).2
    have h2 : lowerL (suffixOf p) = pdfExt := by
      have := ((Bool.and_eq_true _ _).mp hp).2
      exact of_decide_eq_true this
    show validar env (p :: t) = Except.ok (p :: t)
    conv_lhs => rw [validar]
    rw [if_neg (by simp [h1.1, h1.2]), if_neg (by simp [h2]),
      ih (fun q hq => h q (List.mem_cons_of_mem _ hq))]

theorem isValid_true_parts {env : Env} {q : Str} (h : isValidPdfPath env q = true) :
    env.pathExists q = true ∧ env.isFile q = true ∧ lowerL (suffixOf q) = pdfExt := by
  unfold isValidPdfPath at h
  have h1 := (Bool.and_eq_true _ _).mp h
  have h2 := (Bool.and_eq_true _ _).mp h1.1
  exact ⟨h2.1, h2.2, of_decide_eq_true h1.2⟩

theorem validar_error_of_firstInvalid (env : Env) :
    ∀ (l : List Str) (p : Str), firstInvalid env l = some p →
      validar env l = Except.error (invalidMsg env p) := by
  intro l
  induction l with
  | nil => intro p h; simp [firstInvalid] at h
  | cons q t ih =>
    intro p h
    unfold firstInvalid at h
    rw [List.find?_cons] at h
    by_cases hq : isValidPdfPath env q = true
    · simp only [hq, Bool.not_true] at h
      obtain ⟨h1, h2, h3⟩ := isValid_true_parts hq
      conv_lhs => rw [validar]
      rw [if_neg (by simp [h1, h2]), if_neg (by simp [h3]), ih p h]
    · have hqf : isValidPdfPath env q = false := Bool.eq_false_iff.mpr hq
      simp only [hqf, Bool.not_false] at h
      have hp : q = p := by simpa using h
      subst hp
      conv_lhs => rw [validar]
      unfold invalidMsg
      by_cases hef : env.pathExists q = true ∧ env.isFile q = true
      · have h3 : lowerL (suffixOf q) ≠ pdfExt := by
          intro h3
          refine hq ?_
          unfold isValidPdfPath
          simp [hef.1, hef.2, h3]
        rw [if_neg (not_not_intro hef), if_pos h3, if_pos hef]
      · rw [if_pos hef, if_neg hef]

/-- C10: for the empty input list both analysis jobs return the fixed error
string `Erro: nenhum PDF informado.` without raising, and with no client
acquisition, upload, analysis or delete call. -/
theorem claim_C10 (env : Env) (w : Bool) :
    analisarPdfs env [] w = (Except.ok erroNenhumPdf, []) ∧
    teAnalisarPdfs env [] = (Except.ok erroNenhumPdf, []) :=
  ⟨rfl, rfl⟩

/-- C4: when the truncated input list contains an offending path (missing,
not a regular file, or without the `.pdf` extension case-insensitively), the
job returns the descriptive error naming the first offender and performs no
client acquisition, upload, analysis or delete call. -/
theorem claim_C4 (env : Env) (c : List Str) (w : Bool) (p : Str)
    (h : firstInvalid env (c.take 5) = some p) :
    analisarPdfs env c w = (Except.ok (invalidMsg env p), []) := by
  have hc : c ≠ [] := by
    intro h0
    subst h0
    simp [firstInvalid] at h
  simp only [analisarPdfs]
  rw [if_neg hc, validar_error_of_firstInvalid env (c.take 5) p h]

/-- Witness for C4: a `.txt` path aborts the job with the naming error and an
empty call trace. -/
theorem claim_C4_witness :
    analisarPdfs env0 ["doc.txt".data] false =
      (Except.ok (invalidMsg env0 "doc.txt".data), []) :=
  claim_C4 env0 ["doc.txt".data] false "doc.txt".data (by decide)

theorem filterMap_deleteId_getClient (evs : List Ev) :
    (Ev.getClient :: evs).filterMap evDeleteId = evs.filterMap evDeleteId := by
  simp [List.filterMap_cons, evDeleteId]

theorem filterMap_deleteId_comp (d : Str → Bool) (ids : List Str) :
    ids.filterMap (evDeleteId ∘ fun fid => Ev.delete fid (d fid)) = ids := by
  induction ids with
  | nil => rfl
  | cons i t ih => simp [List.filterMap_cons, evDeleteId, Function.comp, ih]

theorem analisar_deletes (env : Env) (c : List Str) (w : Bool) :
    (analisarPdfs env c w).2.filterMap evDeleteId = uploadedIds env c := by
  simp only [analisarPdfs, uploadedIds]
  by_cases hc : c = []
  · rw [if_pos hc, if_pos hc]
    rfl
  · rw [if_neg hc, if_neg hc]
    split
    · rfl
    · rename_i pv heq
      by_cases hcl : env.clientOk = false
      · rw [if_pos hcl, if_pos hcl]
        rfl
      · rw [if_neg hcl, if_neg hcl]
        split
        · rename_i e heq2
          simp [filterMap_deleteId_getClient, List.filterMap_append,
            filterMap_deleteId_uploads, filterMap_deleteId_deletes,
            filterMap_deleteId_comp, List.filterMap_cons, evDeleteId]
        · rename_i heq2
          split
          · rename_i e heq3
            simp [filterMap_deleteId_getClient, List.filterMap_append,
            filterMap_deleteId_uploads, filterMap_deleteId_deletes,
            filterMap_deleteId_comp, List.filterMap_cons, evDeleteId]
          · rename_i body heq3
            simp [filterMap_deleteId_getClient, List.filterMap_append,
            filterMap_deleteId_uploads, filterMap_deleteId_deletes,
            filterMap_deleteId_comp, List.filterMap_cons, evDeleteId]

theorem teAnalisar_deletes (env : Env) (c : List Str) :
    (teAnalisarPdfs env c).2.filterMap evDeleteId = uploadedIds env c := by
  simp only [teAnalisarPdfs, uploadedIds]
  by_cases hc : c = []
  · rw [if_pos hc, if_pos hc]
    rfl
  · rw [if_neg hc, if_neg hc]
    split
    · rfl
    · rename_i pv heq
      by_cases hcl : env.clientOk = false
      · rw [if_pos hcl, if_pos hcl]
        rfl
      · rw [if_neg hcl, if_neg hcl]
        split
        · rename_i e heq2
          simp [filterMap_deleteId_getClient, List.filterMap_append,
            filterMap_deleteId_uploads, filterMap_deleteId_deletes,
            filterMap_deleteId_comp, List.filterMap_cons, evDeleteId]
        · rename_i heq2
          split
          · rename_i e heq3
            simp [filterMap_deleteId_getClient, List.filterMap_append,
            filterMap_deleteId_uploads, filterMap_deleteId_deletes,
            filterMap_deleteId_comp, List.filterMap_cons, evDeleteId]
          · rename_i body heq3
            simp [filterMap_deleteId_getClient, List.filterMap_append,
            filterMap_deleteId_uploads, filterMap_deleteId_deletes,
            filterMap_deleteId_comp, List.filterMap_cons, evDeleteId]

theorem validar_envWithDelete (env : Env) (d : Str → Bool) :
    ∀ l, validar (envWithDelete env d) l = validar env l := by
  intro l
  induction l with
  | nil => rfl
  | cons p t ih =>
    simp only [validar, envWithDelete]
    simp only [envWithDelete] at ih
    rw [ih]

theorem uploads_envWithDelete (env : Env) (d : Str → Bool) :
    ∀ l, uploads (envWithDelete env d) l = uploads env l := by
  intro l
  induction l with
  | nil => rfl
  | cons p t ih =>
    simp only [uploads, envWithDelete]
    simp only [envWithDelete] at ih
    rw [ih]

theorem analisar_result_envWithDelete (env : Env) (d : Str → Bool) (c : List Str) (w : Bool) :
    (analisarPdfs (envWithDelete env d) c w).1 = (analisarPdfs env c w).1 := by
  simp only [analisarPdfs]
  rw [validar_envWithDelete]
  by_cases hc : c = []
  · rw [if_pos hc, if_pos hc]
  · rw [if_neg hc, if_neg hc]
    split
    · rfl
    · rename_i pv heq
      rw [uploads_envWithDelete]
      rw [show (envWithDelete env d).clientOk = env.clientOk from rfl]
      by_cases hb : env.clientOk = false
      · rw [if_pos hb, if_pos hb]
      · rw [if_neg hb, if_neg hb]
        split
        · rename_i e heq2
          rfl
        · rename_i heq2
          rw [show (envWithDelete env d).analyze = env.analyze from rfl]
          split
          · rename_i e heq3
            rfl
          · rename_i body heq3
            rfl

theorem teAnalisar_result_envWithDelete (env : Env) (d : Str → Bool) (c : List Str) :
    (teAnalisarPdfs (envWithDelete env d) c).1 = (teAnalisarPdfs env c).1 := by
  simp only [teAnalisarPdfs]
  rw [validar_envWithDelete]
  by_cases hc : c = []
  · rw [if_pos hc, if_pos hc]
  · rw [if_neg hc, if_neg hc]
    split
    · rfl
    · rename_i pv heq
      rw [uploads_envWithDelete]
      rw [show (envWithDelete env d).clientOk = env.clientOk from rfl]
      by_cases hb : env.clientOk = false
      · rw [if_pos hb, if_pos hb]
      · rw [if_neg hb, if_neg hb]
        split
        · rename_i e heq2
          rfl
        · rename_i heq2
          rw [show (envWithDelete env d).analyze = env.analyze from rfl]
          split
          · rename_i e heq3
            rfl
          · rename_i body heq3
            rfl

/-- C3: in every run (of either `analisar_pdfs`), exactly one delete attempt
is issued for each successfully uploaded artifact identifier, in order,
before the job returns, and changing the outcomes of the delete calls never
changes the returned result. -/
theorem claim_C3 (env : Env) (c : List Str) (w : Bool) (d d' : Str → Bool) :
    (analisarPdfs env c w).2.filterMap evDeleteId = uploadedIds env c ∧
    (teAnalisarPdfs env c).2.filterMap evDeleteId = uploadedIds env c ∧
    (analisarPdfs (envWithDelete env d) c w).1 = (analisarPdfs (envWithDelete env d') c w).1 ∧
    (teAnalisarPdfs (envWithDelete env d) c).1 = (teAnalisarPdfs (envWithDelete env d') c).1 :=
  ⟨analisar_deletes env c w, teAnalisar_deletes env c,
    (analisar_result_envWithDelete env d c w).trans
      (analisar_result_envWithDelete env d' c w).symm,
    (teAnalisar_result_envWithDelete env d c).trans
      (teAnalisar_result_envWithDelete env d' c).symm⟩

theorem filterMap_uploadPath_getClient (evs : List Ev) :
    (Ev.getClient :: evs).filterMap evUploadPath = evs.filterMap evUploadPath := by
  simp [List.filterMap_cons, evUploadPath]

theorem filterMap_analyzeArg_getClient (evs : List Ev) :
    (Ev.getClient :: evs).filterMap evAnalyzeArg = evs.filterMap evAnalyzeArg := by
  simp [List.filterMap_cons, evAnalyzeArg]

theorem filterMap_uploadPath_uploads (l : List Str) :
    (l.map Ev.upload).filterMap evUploadPath = l := by
  induction l with
  | nil => rfl
  | cons p t ih => simp [List.map_cons, List.filterMap_cons, evUploadPath, ih]

theorem filterMap_uploadPath_deletes (d : Str → Bool) (ids : List Str) :
    (ids.map (fun fid => Ev.delete fid (d fid))).filterMap evUploadPath = [] := by
  induction ids with
  | nil => rfl
  | cons i t ih => simp [List.map_cons, List.filterMap_cons, evUploadPath, ih]

theorem filterMap_analyzeArg_uploads (l : List Str) :
    (l.map Ev.upload).filterMap evAnalyzeArg = [] := by
  induction l with
  | nil => rfl
  | cons p t ih => simp [List.map_cons, List.filterMap_cons, evAnalyzeArg, ih]

theorem filterMap_analyzeArg_deletes (d : Str → Bool) (ids : List Str) :
    (ids.map (fun fid => Ev.delete fid (d fid))).filterMap evAnalyzeArg = [] := by
  induction ids with
  | nil => rfl
  | cons i t ih => simp [List.map_cons, List.filterMap_cons, evAnalyzeArg, ih]

theorem filterMap_uploadPath_analyzeSingleton (ids : List Str) :
    ([Ev.analyze ids] : List Ev).filterMap evUploadPath = [] := by
  simp [List.filterMap_cons, evUploadPath]

theorem filterMap_analyzeArg_analyzeSingleton (ids : List Str) :
    ([Ev.analyze ids] : List Ev).filterMap evAnalyzeArg = [ids] := by
  simp [List.filterMap_cons, evAnalyzeArg]

/-- C6: with more than five valid input files, exactly the first five are
uploaded, one upload per file in the original order, and exactly one analysis
call is issued, referencing all collected artifact identifiers in upload
order. -/
theorem claim_C6 (env : Env) (c : List Str) (w : Bool) (f : Str → Str)
    (hlen : 5 < c.length)
    (hval : ∀ p ∈ c, isValidPdfPath env p = true)
    (hcl : env.clientOk = true)
    (hupl : ∀ p ∈ c.take 5, env.upload p = Except.ok (f p)) :
    (analisarPdfs env c w).2.filterMap evUploadPath = c.take 5 ∧
    (analisarPdfs env c w).2.filterMap evAnalyzeArg = [(c.take 5).map f] := by
  have hc : c ≠ [] := by
    intro h0
    subst h0
    simp at hlen
  have hval5 : validar env (c.take 5) = Except.ok (c.take 5) :=
    validar_ok_of_all_valid env (c.take 5) (fun p hp => hval p (List.take_subset 5 c hp))
  have hups : uploads env (c.take 5) = ((c.take 5).map f, (c.take 5).map Ev.upload, none) :=
    uploads_all_ok env f (c.take 5) hupl
  have hclf : ¬ env.clientOk = false := by simp [hcl]
  have hevents : (analisarPdfs env c w).2 =
      Ev.getClient :: ((c.take 5).map Ev.upload ++ [Ev.analyze ((c.take 5).map f)] ++
        ((c.take 5).map f).map (fun fid => Ev.delete fid (env.deleteOk fid))) := by
    simp only [analisarPdfs]
    rw [if_neg hc]
    split
    · rename_i msg heq
      rw [hval5] at heq
      cases heq
    · rename_i pv heq
      rw [hval5] at heq
      injection heq with hpv
      subst hpv
      rw [if_neg hclf, hups]
      split
      · rename_i e heq2
        simp at heq2
      · rename_i heq2
        split
        · rename_i e heq3
          rfl
        · rename_i body heq3
          rfl
  constructor
  · rw [hevents, filterMap_uploadPath_getClient, List.filterMap_append, List.filterMap_append,
      filterMap_uploadPath_uploads, filterMap_uploadPath_analyzeSingleton,
      filterMap_uploadPath_deletes]
    simp
  · rw [hevents, filterMap_analyzeArg_getClient, List.filterMap_append, List.filterMap_append,
      filterMap_analyzeArg_uploads, filterMap_analyzeArg_analyzeSingleton,
      filterMap_analyzeArg_deletes]
    simp

/-- Witness for C6: six valid files, exactly the first five uploaded in order
and one analysis call with their identifiers. -/
theorem claim_C6_witness :
    (analisarPdfs env0 c6w false).2.filterMap evUploadPath = c6w.take 5 ∧
    (analisarPdfs env0 c6w false).2.filterMap evAnalyzeArg = [(c6w.take 5).map (fun p => p)] :=
  claim_C6 env0 c6w false (fun p => p) (by decide) (by decide) rfl (fun p _ => rfl)

/-- C5: once the remote analysis succeeded and the fill step was requested,
a JSON decoding failure, a non-object top-level value, or a raising document
fill still yields the analysis text with an inline `[AVISO]` note appended,
while a successful fill yields the analysis text with the output path after
the success marker. -/
theorem claim_C5 (env : Env) (c pv : List Str) (body : Option Str)
    (hc : c ≠ []) (hv : validar env (c.take 5) = Except.ok pv)
    (hcl : env.clientOk = true) (hups : (uploads env pv).2.2 = none)
    (han : env.analyze (uploads env pv).1 = Except.ok body) :
    (∀ e, env.jsonLoads (extrairJsonPuro (saidaOf body)) = Except.error e →
        (analisarPdfs env c true).1 = Except.ok (saidaOf body ++ avisoWord e)) ∧
    (env.jsonLoads (extrairJsonPuro (saidaOf body)) = Except.ok Json.nonObj →
        (analisarPdfs env c true).1 = Except.ok (saidaOf body ++ avisoWord naoDicionario)) ∧
    (∀ dct e, env.jsonLoads (extrairJsonPuro (saidaOf body)) = Except.ok (Json.obj dct) →
        env.fillWord dct = Except.error e →
        (analisarPdfs env c true).1 = Except.ok (saidaOf body ++ avisoWord e)) ∧
    (∀ dct caminho, env.jsonLoads (extrairJsonPuro (saidaOf body)) = Except.ok (Json.obj dct) →
        env.fillWord dct = Except.ok caminho →
        (analisarPdfs env c true).1 = Except.ok (saidaOf body ++ sucessoWord caminho)) := by
  have hrun : (analisarPdfs env c true).1 =
      Except.ok (saidaOf body ++ fillNote env (saidaOf body)) := by
    simp only [analisarPdfs]
    rw [if_neg hc]
    split
    · rename_i msg heq
      rw [hv] at heq
      cases heq
    · rename_i pv' heq
      rw [hv] at heq
      injection heq with hpv
      subst hpv
      rw [if_neg (by simp [hcl])]
      split
      · rename_i e heq2
        rw [hups] at heq2
        cases heq2
      · rename_i heq2
        split
        · rename_i e heq3
          rw [han] at heq3
          cases heq3
        · rename_i body' heq3
          rw [han] at heq3
          injection heq3 with hbody
          subst hbody
          rfl
  refine ⟨?_, ?_, ?_, ?_⟩
  · intro e hj
    rw [hrun, show fillNote env (saidaOf body) = avisoWord e from by
      unfold fillNote
      rw [hj]]
  · intro hj
    rw [hrun, show fillNote env (saidaOf body) = avisoWord naoDicionario from by
      unfold fillNote
      rw [hj]]
  · intro dct e hj hf
    have hstep : fillNote env (saidaOf body) =
        match env.fillWord dct with
        | Except.error e => avisoWord e
        | Except.ok caminho => sucessoWord caminho := by
      unfold fillNote
      rw [hj]
    rw [hrun, hstep, hf]
  · intro dct caminho hj hf
    have hstep : fillNote env (saidaOf body) =
        match env.fillWord dct with
        | Except.error e => avisoWord e
        | Except.ok caminho => sucessoWord caminho := by
      unfold fillNote
      rw [hj]
    rw [hrun, hstep, hf]

/-- Witness for C5: a successful run with the fill step appends the success
marker and the output path. -/
theorem claim_C5_witness :
    (analisarPdfs env0 ["a.pdf".data] true).1 =
      Except.ok (saidaOf (some "R".data) ++ sucessoWord "out.docx".data) :=
  ((claim_C5 env0 ["a.pdf".data] ["a.pdf".data] (some "R".data)
      (by decide) (by rfl) rfl (by rfl) (by rfl)).2.2.2)
    [("A".data, some "b".data)] "out.docx".data (by rfl) (by rfl)

/-! ### Lemmas: the background worker -/

theorem loopEmit_nil (cancel : Nat → Bool) (k : Nat) :
    loopEmit cancel k [] = ([], k, true) := rfl

theorem loopEmit_cons_cancel (cancel : Nat → Bool) (k : Nat) (p : Nat) (ps : List Nat)
    (h : cancel k = true) :
    loopEmit cancel k (p :: ps) = ([WEv.fail cancelMsg], k + 1, false) := by
  conv_lhs => rw [loopEmit]
  rw [if_pos h]

theorem loopEmit_cons_go (cancel : Nat → Bool) (k : Nat) (p : Nat) (ps : List Nat)
    (h : cancel k = false) :
    loopEmit cancel k (p :: ps) =
      (WEv.progress p :: (loopEmit cancel (k + 1) ps).1,
        (loopEmit cancel (k + 1) ps).2.1, (loopEmit cancel (k + 1) ps).2.2) := by
  conv_lhs => rw [loopEmit]
  rw [if_neg (by simp [h])]

theorem loopEmit_spec (cancel : Nat → Bool) :
    ∀ (ps : List Nat) (k : Nat), ∃ m,
      (loopEmit cancel k ps).1 =
        ((ps.take m).map WEv.progress) ++
          (if (loopEmit cancel k ps).2.2 = true then [] else [WEv.fail cancelMsg]) ∧
      ((loopEmit cancel k ps).2.2 = true → ps.take m = ps) := by
  intro ps
  induction ps with
  | nil =>
    intro k
    refine ⟨0, ?_, ?_⟩ <;> simp [loopEmit_nil]
  | cons p ps ih =>
    intro k
    by_cases hk : cancel k = true
    · refine ⟨0, ?_, ?_⟩ <;> simp [loopEmit_cons_cancel cancel k p ps hk]
    · have hkf : cancel k = false := Bool.eq_false_iff.mpr hk
      obtain ⟨m, h1, h2⟩ := ih (k + 1)
      refine ⟨m + 1, ?_, ?_⟩
      · rw [loopEmit_cons_go cancel k p ps hkf]
        simp only [List.take_succ_cons, List.map_cons, List.cons_append]
        rw [h1]
      · intro hdone
        rw [loopEmit_cons_go cancel k p ps hkf] at hdone
        have hdone2 : (loopEmit cancel (k + 1) ps).2.2 = true := hdone
        rw [List.take_succ_cons, h2 hdone2]

/-- C9: every run of the background worker emits a monotonically
non-decreasing sequence of progress percentages followed by exactly one
terminal notification (success or failure), and nothing after it. -/
theorem claim_C9 (cancel : Nat → Bool) (work : Except Str Str) :
    ∃ (ps : List Nat) (t : WEv),
      workerRun cancel work = ps.map WEv.progress ++ [t] ∧
      isTerminal t = true ∧ List.Chain' (fun a b => a ≤ b) ps := by
  have hfull : (fase1Vals ++ fase2Vals.map (fun p => min p 100)) =
      [0, 5, 10, 45, 50, 55, 60, 65, 70, 75, 80, 85, 90, 95, 100] := by decide
  have hchain : List.Chain' (fun a b : Nat => a ≤ b)
      (fase1Vals ++ fase2Vals.map (fun p => min p 100)) := by
    rw [hfull]
    simp [List.chain'_cons]
  obtain ⟨m1, h11, h12⟩ := loopEmit_spec cancel fase1Vals 0
  have hpre1 : (fase1Vals.take m1) <+: (fase1Vals ++ fase2Vals.map (fun p => min p 100)) := by
    obtain ⟨t, ht⟩ := List.take_prefix m1 fase1Vals
    exact ⟨t ++ fase2Vals.map (fun p => min p 100), by rw [← List.append_assoc, ht]⟩
  have hpreF1 : fase1Vals <+: (fase1Vals ++ fase2Vals.map (fun p => min p 100)) :=
    ⟨fase2Vals.map (fun p => min p 100), rfl⟩
  cases work with
  | error e =>
    simp only [workerRun]
    by_cases hd1 : (loopEmit cancel 0 fase1Vals).2.2 = true
    · rw [if_neg (by simp [hd1])]
      have hr1 : (loopEmit cancel 0 fase1Vals).1 = fase1Vals.map WEv.progress := by
        rw [h11, if_pos hd1, h12 hd1, List.append_nil]
      by_cases hc1 : cancel (loopEmit cancel 0 fase1Vals).2.1 = true
      · rw [if_pos hc1]
        exact ⟨fase1Vals, WEv.fail cancelMsg, by rw [hr1], rfl, hchain.prefix hpreF1⟩
      · rw [if_neg hc1]
        exact ⟨fase1Vals, WEv.fail (erroConsultarIA e), by rw [hr1], rfl,
          hchain.prefix hpreF1⟩
    · rw [if_pos (Bool.eq_false_iff.mpr hd1)]
      refine ⟨fase1Vals.take m1, WEv.fail cancelMsg, ?_, rfl, hchain.prefix hpre1⟩
      rw [h11, if_neg (by simp [hd1])]
  | ok resp =>
    simp only [workerRun]
    by_cases hd1 : (loopEmit cancel 0 fase1Vals).2.2 = true
    · rw [if_neg (by simp [hd1])]
      have hr1 : (loopEmit cancel 0 fase1Vals).1 = fase1Vals.map WEv.progress := by
        rw [h11, if_pos hd1, h12 hd1, List.append_nil]
      by_cases hc1 : cancel (loopEmit cancel 0 fase1Vals).2.1 = true
      · rw [if_pos hc1]
        exact ⟨fase1Vals, WEv.fail cancelMsg, by rw [hr1], rfl, hchain.prefix hpreF1⟩
      · rw [if_neg hc1]
        by_cases hc2 : cancel ((loopEmit cancel 0 fase1Vals).2.1 + 1) = true
        · rw [if_pos hc2]
          exact ⟨fase1Vals, WEv.fail cancelMsg, by rw [hr1], rfl, hchain.prefix hpreF1⟩
        · rw [if_neg hc2]
          obtain ⟨m2, h21, h22⟩ := loopEmit_spec cancel (fase2Vals.map (fun p => min p 100))
            ((loopEmit cancel 0 fase1Vals).2.1 + 2)
          by_cases hd2 : (loopEmit cancel ((loopEmit cancel 0 fase1Vals).2.1 + 2)
              (fase2Vals.map (fun p => min p 100))).2.2 = true
          · rw [if_neg (by simp [hd2])]
            refine ⟨fase1Vals ++ fase2Vals.map (fun p => min p 100), WEv.ok resp, ?_, rfl,
              hchain⟩
            rw [hr1, h21, if_pos hd2, h22 hd2, List.append_nil, List.map_append,
              List.append_assoc]
          · rw [if_pos (Bool.eq_false_iff.mpr hd2)]
            refine ⟨fase1Vals ++ (fase2Vals.map (fun p => min p 100)).take m2,
              WEv.fail cancelMsg, ?_, rfl, ?_⟩
            · rw [hr1, h21, if_neg (by simp [hd2]), List.map_append, List.append_assoc]
            · refine hchain.prefix ?_
              obtain ⟨t, ht⟩ := List.take_prefix m2 (fase2Vals.map (fun p => min p 100))
              exact ⟨t, by rw [List.append_assoc, ht]⟩
    · rw [if_pos (Bool.eq_false_iff.mpr hd1)]
      refine ⟨fase1Vals.take m1, WEv.fail cancelMsg, ?_, rfl, hchain.prefix hpre1⟩
      rw [h11, if_neg (by simp [hd1])]
